import Mathlib

/-!
# Verification of the i18n message extraction engine

Shallow embedding of `modules/@angular/compiler/src/i18n/message_extractor.ts`
and the interfaces it consumes.  The classes and functions that live in
`message_extractor.ts` are translated directly from that source; collaborators
that the source imports but whose code is not part of the source tree
(`shared.ts`: `Part`, `partition`, `messageFromAttribute`,
`messageFromI18nAttribute`, `I18nError`; `message.ts`: `Message`, `id`; the
facade `StringMapWrapper`) are modelled from the specification and are marked
`Modelled from the spec:` in their doc comments.

Machine model notes:
* JavaScript exceptions are modelled with `Except`: the thrown value is either
  an i18n-specific error (`ExtractError.i18n`) or any other thrown value
  (`ExtractError.other`), mirroring the `e instanceof I18nError` test.
* The mutable instance fields `_messages` / `_errors` of `MessageExtractor`
  are modelled by explicit state passing (`ExtractState`), and `extract` is a
  state transformer on the instance state `MessageExtractorState`.
* Per the design note in the spec (§9), the node type is the closed tagged
  variant Element | Text | Comment.
-/

namespace I18n

/-- An attribute of an element node: `(name, value)`.  Source locations carry
no behavioural content for the verified properties and are omitted. -/
structure HtmlAttr where
  name : String
  value : String
deriving Repr, DecidableEq

/-- The markup AST consumed by the extractor (`HtmlAst` with the variants
`HtmlElementAst`, `HtmlTextAst`, `HtmlCommentAst`). -/
inductive HtmlAst where
  | element (name : String) (attrs : List HtmlAttr) (children : List HtmlAst)
  | text (value : String)
  | comment (value : String)
deriving Repr

/-- Tag name of an element node (`p.name` in the source); `""` otherwise. -/
def HtmlAst.elName : HtmlAst → String
  | .element n _ _ => n
  | _ => ""

/-- Attributes of an element node (`p.attrs` in the source); `[]` otherwise. -/
def HtmlAst.attrList : HtmlAst → List HtmlAttr
  | .element _ a _ => a
  | _ => []

/-- Children of an element node (`n.children` in the source); `[]` otherwise. -/
def HtmlAst.childNodes : HtmlAst → List HtmlAst
  | .element _ _ c => c
  | _ => []

/-- Whether the node is an element (`n instanceof HtmlElementAst`). -/
def HtmlAst.isElement : HtmlAst → Bool
  | .element _ _ _ => true
  | _ => false

/-- A diagnostic: `ParseError` from `parse_util`.  The i18n-specific subclass
`I18nError` adds no observable data, so a single record serves for both; what
distinguishes a thrown `I18nError` from any other thrown value is captured by
`ExtractError` below. -/
structure ParseError where
  msg : String
deriving Repr, DecidableEq

/-- Interpolation delimiter pair (`InterpolationConfig`).  The field `end` is
a Lean keyword, hence `startSym`/`endSym`. -/
structure InterpolationConfig where
  startSym : String
  endSym : String
deriving Repr, DecidableEq

/-- Source `DEFAULT_INTERPOLATION_CONFIG`: a double opening brace as the start
delimiter and a double closing brace as the end delimiter (the braces are
written with character escapes). -/
def DEFAULT_INTERPOLATION_CONFIG : InterpolationConfig :=
  ⟨"\x7b\x7b", "\x7d\x7d"⟩

/-- Modelled from the spec: `Message` from `message.ts` is not under `src/`.
A message carries the stringified placeholder-annotated `content` and the
optional translator `meaning` and `description` (§3 of the spec; the
placeholder map and source span carry no behavioural content for the verified
properties). -/
structure Message where
  content : String
  meaning : Option String
  description : Option String
deriving Repr, DecidableEq

/-- Modelled from the spec: `id` from `message.ts` is not under `src/`.  The
identity is a deterministic function of `(content, meaning)` (§3): two
messages with identical content and meaning get the same identity. -/
def id (m : Message) : String :=
  "i18n:" ++ m.meaning.getD "" ++ "|" ++ m.content

/-- All messages extracted from a template (`ExtractionResult`). -/
structure ExtractionResult where
  messages : List Message
  errors : List ParseError
deriving Repr, DecidableEq

/-! ## Character-list string helpers

The embedding works on `String.data` (the list of characters) so that every
operation reduces well in the kernel.  Each helper mirrors the String/JS
operation named in its comment. -/

/-- Mirrors `s.startsWith pre` on the character lists. -/
def strStartsWith (s pre : String) : Bool :=
  pre.data.isPrefixOf s.data

/-- Mirrors `s.substring n` / `String.drop`: drop the first `n` characters. -/
def strDrop (s : String) (n : Nat) : String :=
  String.mk (s.data.drop n)

/-- Whitespace test used by `trim`. -/
def isWsChar (c : Char) : Bool :=
  c == ' ' || c == '\t' || c == '\n' || c == '\r'

/-- Mirrors `s.trim`: strip leading and trailing whitespace. -/
def strTrim (s : String) : String :=
  String.mk (((s.data.dropWhile isWsChar).reverse.dropWhile isWsChar).reverse)

/-- One character of HTML escaping. -/
def escapeChar (c : Char) : List Char :=
  if c == '&' then "&amp;".data
  else if c == '<' then "&lt;".data
  else if c == '>' then "&gt;".data
  else [c]

/-- HTML-escape literal text (spec §4.2: text without interpolation is
emitted as literal text, HTML-escaped). -/
def htmlEscape (s : String) : String :=
  String.mk ((s.data.map escapeChar).flatten)

/-- Split a character list at the first occurrence of the delimiter sequence
`delim`: returns `(before, after)` with the delimiter removed, or `none` when
the delimiter does not occur. -/
def splitAtSeq (delim : List Char) : List Char → Option (List Char × List Char)
  | [] => if delim = [] then some ([], []) else none
  | c :: rest =>
    if delim.isPrefixOf (c :: rest) then
      some ([], (c :: rest).drop delim.length)
    else
      match splitAtSeq delim rest with
      | some (before, after) => some (c :: before, after)
      | none => none

theorem splitAtSeq_length (delim : List Char) :
    ∀ l before after, splitAtSeq delim l = some (before, after) →
      before.length + delim.length + after.length = l.length := by
  intro l
  induction l with
  | nil =>
    intro before after h
    simp only [splitAtSeq] at h
    split at h
    · rename_i hd
      cases h
      simp [hd]
    · cases h
  | cons c rest ih =>
    intro before after h
    simp only [splitAtSeq] at h
    split at h
    · rename_i hp
      cases h
      have hpre : delim <+: (c :: rest) := by
        exact List.isPrefixOf_iff_prefix.mp hp
      have hle : delim.length ≤ (c :: rest).length := hpre.length_le
      simp only [List.length_nil, Nat.zero_add, List.length_drop]
      omega
    · rename_i hp
      cases hsp : splitAtSeq delim rest with
      | none => rw [hsp] at h; cases h
      | some pr =>
        obtain ⟨b, a⟩ := pr
        rw [hsp] at h
        simp only [Option.some.injEq, Prod.mk.injEq] at h
        obtain ⟨hb, ha⟩ := h
        subst hb ha
        have hrec := ih b a hsp
        simp only [List.length_cons]
        omega

/-- A segment of a text region: literal text (`inl`) or the source of one
interpolation expression (`inr`). -/
abbrev TextSeg := Sum (List Char) (List Char)

/-- Modelled from the spec: the interpolation-boundary detection performed
via the external expression parser (§6) is not under `src/`.  Scans a
character list for `startSym … endSym` interpolation spans; an interpolation
start with no matching end is an i18n error attributable to the enclosing
text (§6/§7).  The `Nat` argument is a recursion bound: every round that
recurses has consumed at least the nonempty start delimiter, so with the
text's length as the bound (see `splitInterpChars`) the zero case is never
reached on a nonempty remainder. -/
def splitInterpCharsF (sd ed : List Char) :
    Nat → List Char → Except ParseError (List TextSeg)
  | 0, l => .ok (if l = [] then [] else [Sum.inl l])
  | fuel + 1, l =>
    if sd.length = 0 ∨ ed.length = 0 then
      .ok (if l = [] then [] else [Sum.inl l])
    else
      match splitAtSeq sd l with
      | none => .ok (if l = [] then [] else [Sum.inl l])
      | some (before, after) =>
        match splitAtSeq ed after with
        | none => .error ⟨"Unterminated interpolation"⟩
        | some (expr, rest) =>
          match splitInterpCharsF sd ed fuel rest with
          | .error e => .error e
          | .ok tail =>
            .ok ((if before = [] then [] else [Sum.inl before]) ++
                 Sum.inr expr :: tail)

/-- The interpolation scanner at its always-sufficient recursion bound. -/
def splitInterpChars (sd ed : List Char) (l : List Char) :
    Except ParseError (List TextSeg) :=
  splitInterpCharsF sd ed l.length l

/-- Render the segments of one text region, threading the expression
placeholder counter: literal text is HTML-escaped, each interpolation
expression becomes an indexed self-closing placeholder (spec §4.2). -/
def renderAttrSegs : List TextSeg → Nat → String × Nat
  | [], k => ("", k)
  | Sum.inl t :: rest, k =>
    let (s, k1) := renderAttrSegs rest k
    (htmlEscape (String.mk t) ++ s, k1)
  | Sum.inr _ :: rest, k =>
    let (s, k1) := renderAttrSegs rest (k + 1)
    ("<ph name=\"" ++ toString k ++ "\"/>" ++ s, k1)

/-- Modelled from the spec: stringify-as-text of an attribute value (§4.3) —
a single text region using expression placeholders only, numbered from 0. -/
def stringifyText (cfg : InterpolationConfig) (s : String) :
    Except ParseError String :=
  match splitInterpChars cfg.startSym.data cfg.endSym.data s.data with
  | .error e => .error e
  | .ok segs => .ok (renderAttrSegs segs 0).1

/-- Modelled from the spec: the `meaning|description` split of a marker
attribute value (§4.3) — either half optional; without a `|` the whole value
is the description. -/
def splitMeaningAndDesc (s : String) : Option String × Option String :=
  match splitAtSeq ['|'] s.data with
  | some (before, after) => (some (String.mk before), some (String.mk after))
  | none => (none, some s)

/-- The marker attribute name (`I18N_ATTR` from `shared.ts`). -/
def I18N_ATTR : String := "i18n"

/-- The i18n attribute marker spelled out (`I18N_ATTR_PREFIX`). -/
def I18N_ATTR_PREFIX : String := "i18n-"

/-- Modelled from the spec: `messageFromAttribute` from `shared.ts` is not
under `src/`.  Builds the Message for an implicitly-translatable attribute:
content is the stringified attribute value, no translator metadata (§4.3).
Invalid interpolation in the value raises a recoverable i18n error (§7). -/
def messageFromAttribute (cfg : InterpolationConfig) (attr : HtmlAttr) :
    Except ParseError Message :=
  match stringifyText cfg attr.value with
  | .error e => .error e
  | .ok content => .ok ⟨content, none, none⟩

/-- Modelled from the spec: `messageFromI18nAttribute` from `shared.ts` is
not under `src/`.  For an `i18n-`-prefixed attribute the prefixed attribute's
value is the `meaning|description` pair, and the message content comes from
the base attribute (the attribute whose name is the prefixed name minus the
marker) of the same element (§4.4(a)); a missing base attribute or invalid
interpolation raises a recoverable i18n error (§4.3/§7). -/
def messageFromI18nAttribute (cfg : InterpolationConfig) (p : HtmlAst)
    (i18nAttr : HtmlAttr) : Except ParseError Message :=
  let expectedName := strDrop i18nAttr.name I18N_ATTR_PREFIX.length
  match p.attrList.find? (fun a => a.name == expectedName) with
  | some attr =>
    match stringifyText cfg attr.value with
    | .error e => .error e
    | .ok content =>
      let (meaning, description) := splitMeaningAndDesc i18nAttr.value
      .ok ⟨content, meaning, description⟩
  | none => .error ⟨"Missing attribute " ++ expectedName⟩

/-! ## Node sizes (termination measure for the tree walks) -/

mutual

/-- Size of one node: 1 plus the sizes of an element's children. -/
def nodeSize : HtmlAst → Nat
  | .element _ _ ch => 1 + nodesSize ch
  | .text _ => 1
  | .comment _ => 1

/-- Total size of a sibling list. -/
def nodesSize : List HtmlAst → Nat
  | [] => 0
  | n :: rest => nodeSize n + nodesSize rest

end

theorem nodeSize_pos (n : HtmlAst) : 1 ≤ nodeSize n := by
  cases n <;> simp [nodeSize]

theorem nodesSize_append (l1 l2 : List HtmlAst) :
    nodesSize (l1 ++ l2) = nodesSize l1 + nodesSize l2 := by
  induction l1 with
  | nil => simp [nodesSize]
  | cons n rest ih => simp [nodesSize, ih]; omega

/-- Modelled from the spec: the Stringifier (§4.2) lives in `shared.ts`,
which is not under `src/`.  Pre-order walk emitting `<ph name="eN">…</ph>`
for each element, wrapping a text node that contains interpolation in
`<ph name="tN">…</ph>` (both numbered by the element counter `e`, assigned
in traversal order), `<ph name="k"/>` for each expression (separate counter
`k`), and HTML-escaped literal text otherwise; counters never reset within
one call.  Returns the string and the final counters. -/
def stringifyNodes (cfg : InterpolationConfig) :
    List HtmlAst → Nat → Nat → Except ParseError (String × Nat × Nat)
  | [], e, k => .ok ("", e, k)
  | .element _ _ ch :: rest, e, k =>
    match stringifyNodes cfg ch (e + 1) k with
    | .error err => .error err
    | .ok (inner, e1, k1) =>
      match stringifyNodes cfg rest e1 k1 with
      | .error err => .error err
      | .ok (outer, e2, k2) =>
        .ok ("<ph name=\"e" ++ toString e ++ "\">" ++ inner ++ "</ph>" ++
             outer, e2, k2)
  | .text v :: rest, e, k =>
    match splitInterpChars cfg.startSym.data cfg.endSym.data v.data with
    | .error err => .error err
    | .ok segs =>
      if segs.any (fun s => s.isRight) then
        let (body, k1) := renderAttrSegs segs k
        match stringifyNodes cfg rest (e + 1) k1 with
        | .error err => .error err
        | .ok (outer, e2, k2) =>
          .ok ("<ph name=\"t" ++ toString e ++ "\">" ++ body ++ "</ph>" ++
               outer, e2, k2)
      else
        match stringifyNodes cfg rest e k with
        | .error err => .error err
        | .ok (outer, e2, k2) => .ok (htmlEscape v ++ outer, e2, k2)
  | .comment _ :: rest, e, k => stringifyNodes cfg rest e k

/-! ## Parts and partitioning -/

/-- Modelled from the spec: `Part` from `shared.ts` is not under `src/`.
Matches the description in the source's own doc comment: a part optionally
holds a root element or a root text node, plus children, the marker value,
and the translation flag (§3). -/
structure Part where
  rootElement : Option HtmlAst
  rootTextNode : Option HtmlAst
  children : List HtmlAst
  i18n : Option String
  hasI18n : Bool

/-- Modelled from the spec: `Part.createMessage` from `shared.ts` is not
under `src/`.  Content is the stringified children; meaning/description come
from the marker value when the part originated from an explicit marker
(§4.3). -/
def Part.createMessage (cfg : InterpolationConfig) (part : Part) :
    Except ParseError Message :=
  match stringifyNodes cfg part.children 0 0 with
  | .error e => .error e
  | .ok (content, _, _) =>
    let (meaning, description) :=
      match part.i18n with
      | some s => splitMeaningAndDesc s
      | none => (none, none)
    .ok ⟨content, meaning, description⟩

/-- Modelled from the spec: a marker-open comment (§4.1), e.g. `<!--i18n-->`.
`"/i18n…"` does not start with `"i18n"`, so a close marker never opens. -/
def isOpeningComment : HtmlAst → Bool
  | .comment v => strStartsWith (strTrim v) "i18n"
  | _ => false

/-- Modelled from the spec: a marker-close comment (§4.1): a comment whose
trimmed value starts with the close marker word `/i18n`. -/
def isClosingComment : HtmlAst → Bool
  | .comment v => strStartsWith (strTrim v) "/i18n"
  | _ => false

/-- Modelled from the spec: the meaning/description text carried by a
marker-open comment — the comment value after the marker word. -/
def commentMeaning (v : String) : String :=
  let s := strDrop (strTrim v) 4
  strTrim (if strStartsWith s ":" then strDrop s 1 else s)

/-- Modelled from the spec: the scan state of the partitioner (§4.1): `none`
outside a marker span, `some (meaning, collected)` inside one. -/
def partitionGo (implicitTags : List String) :
    List HtmlAst → Option (String × List HtmlAst) → List ParseError →
    List Part × List ParseError
  | [], none, errs => ([], errs)
  | [], some (meaning, acc), errs =>
    -- unterminated open marker: structural error, the remaining nodes still
    -- form an (unterminated) translatable part (§4.1)
    ([⟨none, none, acc, some meaning, true⟩],
     errs ++ [⟨"Missing closing i18n comment"⟩])
  | n :: rest, none, errs =>
    match n with
    | .comment v =>
      if isOpeningComment n then
        partitionGo implicitTags rest (some (commentMeaning v, [])) errs
      else if isClosingComment n then
        -- close marker with no open: structural error, treated as an
        -- ordinary (single-node, non-translatable) part (§4.1)
        let (ps, errs1) :=
          partitionGo implicitTags rest none
            (errs ++ [⟨"Unexpected closing i18n comment"⟩])
        (⟨none, none, [], none, false⟩ :: ps, errs1)
      else
        let (ps, errs1) := partitionGo implicitTags rest none errs
        (⟨none, none, [], none, false⟩ :: ps, errs1)
    | .element _ attrs ch =>
      -- marker attribute is authoritative; implicit tag membership also
      -- makes the single-element part translatable (§4.1)
      let i18nAttr := attrs.find? (fun a => a.name == I18N_ATTR)
      let hasI18n := i18nAttr.isSome || implicitTags.contains n.elName
      let (ps, errs1) := partitionGo implicitTags rest none errs
      (⟨some n, none, ch, i18nAttr.map (fun a => a.value), hasI18n⟩ :: ps,
       errs1)
    | .text _ =>
      let (ps, errs1) := partitionGo implicitTags rest none errs
      (⟨none, some n, [], none, false⟩ :: ps, errs1)
  | n :: rest, some (meaning, acc), errs =>
    if isClosingComment n then
      let (ps, errs1) := partitionGo implicitTags rest none errs
      (⟨none, none, acc, some meaning, true⟩ :: ps, errs1)
    else
      -- the span between the markers, inclusive of all node types (§4.1)
      partitionGo implicitTags rest (some (meaning, acc ++ [n])) errs

/-- Modelled from the spec: `partition` from `shared.ts` is not under `src/`
(§4.1).  Argument order follows the call site in `_recurse`:
`partition(nodes, this._errors, this._implicitTags)`. -/
def partition (nodes : List HtmlAst) (errors : List ParseError)
    (implicitTags : List String) : List Part × List ParseError :=
  partitionGo implicitTags nodes none errors

/-- Combined measure of a part list: each part weighs one more than its
children. -/
def partsMeasure : List Part → Nat
  | [] => 0
  | p :: rest => (1 + nodesSize p.children) + partsMeasure rest

theorem partitionGo_measure (implicitTags : List String) :
    ∀ (l : List HtmlAst),
      (∀ errs, partsMeasure (partitionGo implicitTags l none errs).1 ≤
          nodesSize l) ∧
      (∀ m acc errs,
        partsMeasure (partitionGo implicitTags l (some (m, acc)) errs).1 ≤
          1 + nodesSize acc + nodesSize l) := by
  intro l
  induction l with
  | nil =>
    constructor
    · intro errs
      simp [partitionGo, partsMeasure]
    · intro m acc errs
      simp [partitionGo, partsMeasure, nodesSize]
  | cons n rest ih =>
    constructor
    · intro errs
      cases n with
      | comment v =>
        simp only [partitionGo]
        split
        · have h := ih.2 (commentMeaning v) [] errs
          simp only [nodesSize, nodeSize] at *
          omega
        · split
          · have h := ih.1 (errs ++ [⟨"Unexpected closing i18n comment"⟩])
            simp only [partsMeasure, nodesSize, nodeSize] at *
            omega
          · have h := ih.1 errs
            simp only [partsMeasure, nodesSize, nodeSize] at *
            omega
      | element nm attrs ch =>
        simp only [partitionGo]
        have h := ih.1 errs
        simp only [partsMeasure, nodesSize, nodeSize] at *
        omega
      | text v =>
        simp only [partitionGo]
        have h := ih.1 errs
        simp only [partsMeasure, nodesSize, nodeSize] at *
        omega
    · intro m acc errs
      simp only [partitionGo]
      split
      · have h := ih.1 errs
        have h2 := nodeSize_pos n
        simp only [partsMeasure, nodesSize] at *
        omega
      · have h := ih.2 m (acc ++ [n]) errs
        rw [nodesSize_append] at h
        simp only [nodesSize] at *
        omega

theorem partition_measure_le (nodes : List HtmlAst) (errors : List ParseError)
    (implicitTags : List String) :
    partsMeasure (partition nodes errors implicitTags).1 ≤ nodesSize nodes := by
  have h := (partitionGo_measure implicitTags nodes).1 errors
  simpa [partition] using h

/-! ## The extraction driver (`MessageExtractor`)

Everything below is translated from `message_extractor.ts` itself.  Thrown
JS values become `Except ExtractError`; the mutable fields `_messages` and
`_errors` become the explicitly threaded `ExtractState`.  The attribute
message builder is a parameter `B` so that the `try`/`catch` at source lines
160–169 can be stated for an arbitrary thrown value; the concrete builder
`i18nAttrBuilder` (the modelled `messageFromI18nAttribute`) instantiates
it. -/

/-- A thrown value: either an `I18nError` (`e instanceof I18nError`) or any
other thrown value. -/
inductive ExtractError where
  | i18n (e : ParseError)
  | other (e : String)
deriving Repr, DecidableEq

/-- The per-instance accumulators `(this._messages, this._errors)`. -/
abbrev ExtractState := List Message × List ParseError

/-- Whether a builder outcome is a thrown value that is not an `I18nError`. -/
def isOtherErr (r : Except ExtractError Message) : Bool :=
  match r with
  | .error (.other _) => true
  | _ => false

/-- Mirrors `attr.name.substring` of the marker length (source line 161). -/
def baseName (a : HtmlAttr) : String :=
  strDrop a.name I18N_ATTR_PREFIX.length

/-- Mirrors the lookup `this._implicitAttrs[p.name]` defaulting to the empty
list when the tag is absent (source lines 154–155); the tag-to-attributes
map is an association list. -/
def transAttrsOf (implicitAttrs : List (String × List String))
    (p : HtmlAst) : List String :=
  match implicitAttrs.find? (fun q => q.1 == p.elName) with
  | some q => q.2
  | none => []

/-- The `forEach` over `i18n-`-prefixed attributes (source lines 159–170):
the base name is pushed onto `explicitAttrs` before the builder runs; a
thrown `I18nError` is appended to `_errors` and the loop continues; any
other thrown value propagates. -/
def explicitPass (B : HtmlAst → HtmlAttr → Except ExtractError Message)
    (p : HtmlAst) :
    List HtmlAttr → List String → ExtractState →
    Except ExtractError (List String × ExtractState)
  | [], ex, st => .ok (ex, st)
  | attr :: rest, ex, (ms, errs) =>
    let ex1 := ex ++ [baseName attr]
    match B p attr with
    | .ok m => explicitPass B p rest ex1 (ms ++ [m], errs)
    | .error (.i18n e) => explicitPass B p rest ex1 (ms, errs ++ [e])
    | .error (.other e) => .error (.other e)

/-- The `forEach` over the implicitly-translatable attributes (source lines
176–178): each message is pushed in order; a thrown error here is *not*
caught (there is no `try` around this loop), so it propagates. -/
def implicitPass (cfg : InterpolationConfig) :
    List HtmlAttr → ExtractState → Except ExtractError ExtractState
  | [], st => .ok st
  | attr :: rest, (ms, errs) =>
    match messageFromAttribute cfg attr with
    | .ok m => implicitPass cfg rest (ms ++ [m], errs)
    | .error e => .error (.i18n e)

/-- Source `_extractMessagesFromAttributes` (lines 152–179), parameterized
by the builder for `i18n-`-prefixed attributes. -/
def extractMessagesFromAttributesB
    (B : HtmlAst → HtmlAttr → Except ExtractError Message)
    (cfg : InterpolationConfig)
    (implicitAttrs : List (String × List String)) (p : HtmlAst)
    (st : ExtractState) : Except ExtractError ExtractState :=
  let transAttrs := transAttrsOf implicitAttrs p
  match explicitPass B p
      (p.attrList.filter (fun a => strStartsWith a.name I18N_ATTR_PREFIX))
      [] st with
  | .error e => .error e
  | .ok (explicitAttrs, st1) =>
    implicitPass cfg
      (((p.attrList.filter
            (fun a => !strStartsWith a.name I18N_ATTR_PREFIX)).filter
          (fun a => !explicitAttrs.contains a.name)).filter
        (fun a => transAttrs.contains a.name)) st1

/-- Source `_recurseToExtractMessagesFromAttributes` (lines 142–150): visit
each node; on an element, extract its attribute messages and recurse into
its children. -/
def recurseToExtractMessagesFromAttributesB
    (B : HtmlAst → HtmlAttr → Except ExtractError Message)
    (cfg : InterpolationConfig)
    (implicitAttrs : List (String × List String)) :
    List HtmlAst → ExtractState → Except ExtractError ExtractState
  | [], st => .ok st
  | .element nm attrs ch :: rest, st =>
    match extractMessagesFromAttributesB B cfg implicitAttrs
        (.element nm attrs ch) st with
    | .error e => .error e
    | .ok st1 =>
      match recurseToExtractMessagesFromAttributesB B cfg implicitAttrs
          ch st1 with
      | .error e => .error e
      | .ok st2 =>
        recurseToExtractMessagesFromAttributesB B cfg implicitAttrs rest st2
  | _ :: rest, st =>
    recurseToExtractMessagesFromAttributesB B cfg implicitAttrs rest st
termination_by l _ => nodesSize l
decreasing_by
  all_goals simp only [nodesSize, nodeSize]
  · omega
  · omega
  · have := nodeSize_pos (by assumption)
    omega

mutual

/-- Source `_recurse` (lines 135–140): partition the sibling list (the
partitioner appends onto `this._errors`) and process each part. -/
def _recurse (B : HtmlAst → HtmlAttr → Except ExtractError Message)
    (cfg : InterpolationConfig) (implicitTags : List String)
    (implicitAttrs : List (String × List String))
    (nodes : List HtmlAst) (st : ExtractState) :
    Except ExtractError ExtractState :=
  match h : partition nodes st.2 implicitTags with
  | (parts, errs1) =>
    processParts B cfg implicitTags implicitAttrs parts (st.1, errs1)
termination_by 3 * nodesSize nodes + 1
decreasing_by
  have hle := partition_measure_le nodes st.2 implicitTags
  rw [h] at hle
  simp only at hle
  omega

/-- The `parts.forEach` loop inside `_recurse` (source line 138). -/
def processParts (B : HtmlAst → HtmlAttr → Except ExtractError Message)
    (cfg : InterpolationConfig) (implicitTags : List String)
    (implicitAttrs : List (String × List String)) :
    List Part → ExtractState → Except ExtractError ExtractState
  | [], st => .ok st
  | part :: rest, st =>
    match _extractMessagesFromPart B cfg implicitTags implicitAttrs part st
        with
    | .error e => .error e
    | .ok st1 => processParts B cfg implicitTags implicitAttrs rest st1
termination_by parts _ => 3 * partsMeasure parts
decreasing_by
  · simp only [partsMeasure]
    omega
  · simp only [partsMeasure]
    omega

/-- Source `_extractMessagesFromPart` (lines 122–133): a translatable part
contributes its message (the uncaught `createMessage` call at line 124) and
then the attribute walk over its children; a non-translatable part is
recursed into; in either case, a root element's own attributes are
inspected afterwards (lines 130–132). -/
def _extractMessagesFromPart
    (B : HtmlAst → HtmlAttr → Except ExtractError Message)
    (cfg : InterpolationConfig) (implicitTags : List String)
    (implicitAttrs : List (String × List String))
    (part : Part) (st : ExtractState) : Except ExtractError ExtractState :=
  let step1 : Except ExtractError ExtractState :=
    if part.hasI18n then
      match part.createMessage cfg with
      | .error e => .error (.i18n e)
      | .ok m =>
        recurseToExtractMessagesFromAttributesB B cfg implicitAttrs
          part.children (st.1 ++ [m], st.2)
    else
      _recurse B cfg implicitTags implicitAttrs part.children st
  match step1 with
  | .error e => .error e
  | .ok st1 =>
    match part.rootElement with
    | some el => extractMessagesFromAttributesB B cfg implicitAttrs el st1
    | none => .ok st1
termination_by 3 * nodesSize part.children + 2
decreasing_by omega

end

/-- The instance fields of `MessageExtractor` (source lines 100–101).  They
are properties of the extractor object — shared by every call on the same
instance — and are re-assigned at each entry to `extract` (lines 110–111). -/
structure MessageExtractorState where
  _messages : List Message
  _errors : List ParseError
deriving Repr, DecidableEq

/-- Output of the external markup parser (`HtmlParseTreeResult`): the AST
forest plus the parser's own errors (§6). -/
structure HtmlParseTreeResult where
  rootNodes : List HtmlAst
  errors : List ParseError

/-- Source `extract` (lines 107–120), parameterized by the attribute message
builder and by the external markup parser (`this._htmlParser.parse`, called
with `parseExpansionForms = true`).  The incoming instance state `s0` is the
state of `this` before the call; lines 110–111 overwrite both fields before
anything else, and the final instance state and the returned
`ExtractionResult` are both reported. -/
def extractB (B : HtmlAst → HtmlAttr → Except ExtractError Message)
    (htmlParser : String → String → Bool → HtmlParseTreeResult)
    (implicitTags : List String)
    (implicitAttrs : List (String × List String))
    (s0 : MessageExtractorState) (template sourceUrl : String)
    (cfg : InterpolationConfig) :
    Except ExtractError (MessageExtractorState × ExtractionResult) :=
  let s : MessageExtractorState := ⟨[], []⟩
  let res := htmlParser template sourceUrl true
  if res.errors.length == 0 then
    match _recurse B cfg implicitTags implicitAttrs res.rootNodes
        (s._messages, s._errors) with
    | .error e => .error e
    | .ok (ms, errs) => .ok (⟨ms, errs⟩, ⟨ms, errs ++ res.errors⟩)
  else
    .ok (s, ⟨s._messages, s._errors ++ res.errors⟩)

/-- The concrete builder used by the source (line 162): build from the
modelled `messageFromI18nAttribute`; every value it throws is an
`I18nError`. -/
def i18nAttrBuilder (cfg : InterpolationConfig) :
    HtmlAst → HtmlAttr → Except ExtractError Message :=
  fun p attr =>
    match messageFromI18nAttribute cfg p attr with
    | .ok m => .ok m
    | .error e => .error (.i18n e)

/-- Source `_extractMessagesFromAttributes` with the concrete builder. -/
def _extractMessagesFromAttributes (cfg : InterpolationConfig)
    (implicitAttrs : List (String × List String)) (p : HtmlAst)
    (st : ExtractState) : Except ExtractError ExtractState :=
  extractMessagesFromAttributesB (i18nAttrBuilder cfg) cfg implicitAttrs p st

/-- Source `_recurseToExtractMessagesFromAttributes` with the concrete builder. -/
def _recurseToExtractMessagesFromAttributes (cfg : InterpolationConfig)
    (implicitAttrs : List (String × List String)) (nodes : List HtmlAst)
    (st : ExtractState) : Except ExtractError ExtractState :=
  recurseToExtractMessagesFromAttributesB (i18nAttrBuilder cfg) cfg
    implicitAttrs nodes st

/-- Source `extract` with the concrete builder. -/
def extract (htmlParser : String → String → Bool → HtmlParseTreeResult)
    (implicitTags : List String)
    (implicitAttrs : List (String × List String))
    (s0 : MessageExtractorState) (template sourceUrl : String)
    (cfg : InterpolationConfig) :
    Except ExtractError (MessageExtractorState × ExtractionResult) :=
  extractB (i18nAttrBuilder cfg) htmlParser implicitTags implicitAttrs s0
    template sourceUrl cfg

/-- One step of the `forEach` in `removeDuplicates`: if
`!StringMapWrapper.contains(uniq, id(m))` then `uniq[id(m)] = m`. -/
def dedupStep (uniq : List (String × Message)) (m : Message) :
    List (String × Message) :=
  if uniq.any (fun q => q.1 == id m) then uniq else uniq ++ [(id m, m)]

/-- Source `removeDuplicates` (lines 30–38).  The JS string-map `uniq` is
modelled as an insertion-ordered association list: message identities are
hash-like strings rather than JS integer indices, so the string-keyed object
preserves insertion order and `StringMapWrapper.values` (not under `src/`)
returns the values in insertion order. -/
def removeDuplicates (messages : List Message) : List Message :=
  (messages.foldl dedupStep ([] : List (String × Message))).map (fun q => q.2)

/-! ## Claim C1: fatal short-circuit on markup parse errors -/

/-- C1: for every template whose markup parse reports at least one error,
`extract` performs no tree walk and returns an `ExtractionResult` with an
empty messages list and an errors list equal to exactly the parser's errors
(no i18n errors are added): the `if` at source line 115 skips `_recurse`, so
the result is `new ExtractionResult([], [].concat(res.errors))`. -/
theorem extract_short_circuits_on_parse_errors
    (htmlParser : String → String → Bool → HtmlParseTreeResult)
    (implicitTags : List String)
    (implicitAttrs : List (String × List String))
    (s0 : MessageExtractorState) (template sourceUrl : String)
    (cfg : InterpolationConfig)
    (h : (htmlParser template sourceUrl true).errors ≠ []) :
    extract htmlParser implicitTags implicitAttrs s0 template sourceUrl cfg =
      .ok (⟨[], []⟩, ⟨[], (htmlParser template sourceUrl true).errors⟩) := by
  unfold extract extractB
  have hlen : ((htmlParser template sourceUrl true).errors.length == 0) =
      false := by
    simp only [beq_eq_false_iff_ne, ne_eq, List.length_eq_zero]
    exact h
  simp [hlen]

/-- Witness for C1 at a concrete parser reporting one error. -/
theorem extract_short_circuits_on_parse_errors_witness :
    extract (fun _ _ _ => ⟨[HtmlAst.text "E"], [⟨"boom"⟩]⟩) [] [] ⟨[], []⟩
        "t" "u" DEFAULT_INTERPOLATION_CONFIG =
      .ok (⟨[], []⟩, ⟨[], [⟨"boom"⟩]⟩) :=
  extract_short_circuits_on_parse_errors _ _ _ _ _ _ _ (by simp)

/-! ## Claim C4: determinism of extraction -/

/-- C4: `extract` is deterministic — two invocations on the identical
template, source URL and interpolation configuration (whatever the instance
state of the extractor at entry to each) yield message lists with identical
`(content, meaning, identity)` triples in identical order.  The embedding is
a pure function of its inputs, which reflects the source: the walk iterates
JS arrays in index order and consults no unordered container. -/
theorem extract_deterministic
    (htmlParser : String → String → Bool → HtmlParseTreeResult)
    (implicitTags : List String)
    (implicitAttrs : List (String × List String))
    (s0 s1 : MessageExtractorState) (template sourceUrl : String)
    (cfg : InterpolationConfig) :
    (extract htmlParser implicitTags implicitAttrs s0 template sourceUrl
        cfg).map
      (fun r => r.2.messages.map (fun m => (m.content, m.meaning, id m))) =
    (extract htmlParser implicitTags implicitAttrs s1 template sourceUrl
        cfg).map
      (fun r => r.2.messages.map (fun m => (m.content, m.meaning, id m))) :=
  rfl

/-! ## Claim C8: the per-call accumulators are instance fields, not locals -/

/-- C8 counterexample: `_messages`/`_errors` are properties of the
`MessageExtractor` object (source lines 100–101), re-assigned by `extract`
at entry (lines 110–111) — not per-invocation locals.  Concretely, an
instance whose `_messages` field holds a stale message before the call has a
different instance state after `extract` returns, so an invocation does
mutate state shared with any other invocation on the same instance, refuting
"share no mutable state". -/
theorem extract_mutates_instance_state :
    (extract (fun _ _ _ => ⟨[], []⟩) [] []
          ⟨[⟨"stale", none, none⟩], []⟩ "t" "u"
          DEFAULT_INTERPOLATION_CONFIG).map Prod.fst =
      Except.ok (⟨[], []⟩ : MessageExtractorState) ∧
    (⟨[], []⟩ : MessageExtractorState) ≠ ⟨[⟨"stale", none, none⟩], []⟩ := by
  constructor
  · simp [extract, extractB, _recurse, partition, partitionGo, processParts,
      Except.map]
  · simp

/-- C8 amended: because lines 110–111 reset both fields before any other
work, the returned `ExtractionResult` of a (non-overlapping) invocation is
independent of the instance state at entry — each sequential call returns
the result it would return in isolation, even though the accumulators
themselves are shared instance fields. -/
theorem extract_result_independent_of_entry_state
    (htmlParser : String → String → Bool → HtmlParseTreeResult)
    (implicitTags : List String)
    (implicitAttrs : List (String × List String))
    (s0 s1 : MessageExtractorState) (template sourceUrl : String)
    (cfg : InterpolationConfig) :
    (extract htmlParser implicitTags implicitAttrs s0 template sourceUrl
        cfg).map Prod.snd =
    (extract htmlParser implicitTags implicitAttrs s1 template sourceUrl
        cfg).map Prod.snd :=
  rfl

/-! ## Claim C2: deduplication keeps the first message per identity -/

/-- Reference formulation following the spec's words (§4.5): scan left to
right keeping a message only when its identity has not been seen yet. -/
def keepFirstById (seen : List String) : List Message → List Message
  | [] => []
  | m :: rest =>
    if seen.any (fun s => s == id m) then keepFirstById seen rest
    else m :: keepFirstById (seen ++ [id m]) rest

theorem removeDuplicates_foldl (ms : List Message) :
    ∀ uniq : List (String × Message),
      (ms.foldl dedupStep uniq).map (fun q => q.2) =
        uniq.map (fun q => q.2) ++
          keepFirstById (uniq.map (fun q => q.1)) ms := by
  induction ms with
  | nil =>
    intro uniq
    simp [keepFirstById]
  | cons m rest ih =>
    intro uniq
    simp only [List.foldl_cons]
    have hmap : ((uniq.map (fun q => q.1)).any fun s => s == id m) =
        uniq.any fun q => q.1 == id m := by
      induction uniq with
      | nil => rfl
      | cons q qs ihq => simp [List.any_cons, ihq]
    by_cases h : uniq.any (fun q => q.1 == id m) = true
    · have hstep : dedupStep uniq m = uniq := by
        rw [dedupStep, if_pos h]
      rw [hstep, ih]
      conv_rhs => rw [keepFirstById]
      rw [hmap, h]
      simp
    · have hstep : dedupStep uniq m = uniq ++ [(id m, m)] := by
        rw [dedupStep, if_neg h]
      rw [hstep, ih]
      conv_rhs => rw [keepFirstById]
      rw [hmap]
      rw [Bool.not_eq_true] at h
      rw [h]
      simp [List.map_append]

theorem keepFirstById_length (seen : List String) (ms : List Message) :
    (keepFirstById seen ms).length ≤ ms.length := by
  induction ms generalizing seen with
  | nil => simp [keepFirstById]
  | cons m rest ih =>
    rw [keepFirstById]
    split
    · exact Nat.le_succ_of_le (ih seen)
    · simpa using ih (seen ++ [id m])

theorem keepFirstById_sublist (seen : List String) (ms : List Message) :
    (keepFirstById seen ms).Sublist ms := by
  induction ms generalizing seen with
  | nil => simp [keepFirstById]
  | cons m rest ih =>
    rw [keepFirstById]
    split
    · exact (ih seen).cons m
    · exact (ih (seen ++ [id m])).cons₂ m

theorem keepFirstById_first (seen : List String) (ms : List Message) :
    ∀ m ∈ keepFirstById seen ms,
      seen.any (fun s => s == id m) = false ∧
      ms.find? (fun x => id x == id m) = some m := by
  induction ms generalizing seen with
  | nil => simp [keepFirstById]
  | cons m' rest ih =>
    intro m hm
    rw [keepFirstById] at hm
    split at hm
    · rename_i hseen
      obtain ⟨h1, h2⟩ := ih seen m hm
      refine ⟨h1, ?_⟩
      have hne : (id m' == id m) = false := by
        by_contra hc
        rw [Bool.not_eq_false, beq_iff_eq] at hc
        rw [← hc] at h1
        rw [h1] at hseen
        exact Bool.false_ne_true hseen
      rw [List.find?_cons, hne]
      exact h2
    · rename_i hseen
      rw [Bool.not_eq_true] at hseen
      rcases List.mem_cons.mp hm with hEq | hTail
      · subst hEq
        exact ⟨hseen, by rw [List.find?_cons]; simp⟩
      · obtain ⟨h1, h2⟩ := ih (seen ++ [id m']) m hTail
        rw [List.any_append] at h1
        have h1l : seen.any (fun s => s == id m) = false := by
          cases hx : seen.any (fun s => s == id m)
          · rfl
          · rw [hx] at h1; simp at h1
        have hne : (id m' == id m) = false := by
          rw [h1l] at h1
          simpa [List.any_cons] using h1
        refine ⟨h1l, ?_⟩
        rw [List.find?_cons, hne]
        exact h2

theorem keepFirstById_count (ms : List Message) :
    ∀ (seen : List String) (k : String),
      (keepFirstById seen ms).countP (fun x => id x == k) =
        if seen.any (fun s => s == k) = false ∧
            ms.any (fun x => id x == k) = true
        then 1 else 0 := by
  induction ms with
  | nil =>
    intro seen k
    simp [keepFirstById]
  | cons m' rest ih =>
    intro seen k
    rw [keepFirstById]
    split
    · rename_i hseen
      rw [ih seen k]
      by_cases hk : (id m' == k) = true
      · rw [beq_iff_eq] at hk
        subst hk
        rw [hseen]
        simp
      · rw [Bool.not_eq_true] at hk
        simp [List.any_cons, hk]
    · rename_i hseen
      rw [Bool.not_eq_true] at hseen
      rw [List.countP_cons, ih (seen ++ [id m']) k]
      by_cases hk : (id m' == k) = true
      · rw [beq_iff_eq] at hk
        subst hk
        have happ : ((seen ++ [id m']).any fun s => s == id m') = true := by
          rw [List.any_append]
          simp
        rw [happ]
        simp [hseen]
      · rw [Bool.not_eq_true] at hk
        have happ : ((seen ++ [id m']).any fun s => s == k) =
            seen.any fun s => s == k := by
          rw [List.any_append]
          simp [hk]
        rw [happ]
        simp [List.any_cons, hk]

/-- C2: for every list of messages, `removeDuplicates` returns a list whose
length is at most the input length, in which every identity occurring in
the input occurs exactly once, the surviving message for each identity is
the first input message with that identity, and the survivors appear in the
relative order of those first occurrences (the output is a sublist of the
input consisting of exactly the first occurrences). -/
theorem removeDuplicates_spec (ms : List Message) :
    (removeDuplicates ms).length ≤ ms.length ∧
    (∀ m ∈ ms, (removeDuplicates ms).countP (fun x => id x == id m) = 1) ∧
    (∀ m ∈ removeDuplicates ms,
        ms.find? (fun x => id x == id m) = some m) ∧
    (removeDuplicates ms).Sublist ms := by
  have hrd : removeDuplicates ms = keepFirstById [] ms := by
    rw [removeDuplicates, removeDuplicates_foldl ms []]
    simp
  refine ⟨?_, ?_, ?_, ?_⟩
  · rw [hrd]
    exact keepFirstById_length [] ms
  · intro m hm
    rw [hrd, keepFirstById_count ms [] (id m)]
    have hany : ms.any (fun x => id x == id m) = true :=
      List.any_eq_true.mpr ⟨m, hm, by simp⟩
    simp [hany]
  · intro m hm
    rw [hrd] at hm
    exact (keepFirstById_first [] ms m hm).2
  · rw [hrd]
    exact keepFirstById_sublist [] ms

/-- Witness for C2 on a concrete list with a duplicated identity. -/
theorem removeDuplicates_spec_witness :
    (removeDuplicates [⟨"A", none, none⟩, ⟨"B", none, none⟩,
        ⟨"A", none, some "later"⟩]).countP
      (fun x => id x == id ⟨"A", none, none⟩) = 1 :=
  (removeDuplicates_spec _).2.1 ⟨"A", none, none⟩ (by simp)

/-! ## Claim C3: what partitioning preserves of the sibling list -/

/-- What one Part contributes when re-flattening the partition: its root
element if present, else its root text node if present, else its children. -/
def reprPart (p : Part) : List HtmlAst :=
  match p.rootElement with
  | some e => [e]
  | none =>
    match p.rootTextNode with
    | some t => [t]
    | none => p.children

/-- The nodes partitioning preserves, stated independently: the sibling list
with the top-level comment nodes removed — marker comments delimit (or, when
unterminated, extend to the end of) a span whose interior nodes are all
kept, and any other top-level comment is dropped. -/
def flattenGo : List HtmlAst → Option (List HtmlAst) → List HtmlAst
  | [], none => []
  | [], some acc => acc
  | n :: rest, none =>
    if isOpeningComment n then flattenGo rest (some [])
    else
      match n with
      | .comment _ => flattenGo rest none
      | _ => n :: flattenGo rest none
  | n :: rest, some acc =>
    if isClosingComment n then acc ++ flattenGo rest none
    else flattenGo rest (some (acc ++ [n]))

theorem partitionGo_flatten (implicitTags : List String) :
    ∀ (l : List HtmlAst) (mode : Option (String × List HtmlAst))
      (errs : List ParseError),
      ((partitionGo implicitTags l mode errs).1.map reprPart).flatten =
        flattenGo l (mode.map (fun pr => pr.2)) := by
  intro l
  induction l with
  | nil =>
    intro mode errs
    cases mode with
    | none => simp [partitionGo, flattenGo]
    | some pr =>
      obtain ⟨m, acc⟩ := pr
      simp [partitionGo, flattenGo, reprPart]
  | cons n rest ih =>
    intro mode errs
    cases mode with
    | none =>
      cases n with
      | comment v =>
        simp only [partitionGo, flattenGo]
        split
        · exact ih (some (commentMeaning v, [])) errs
        · split
          · simp only [List.map_cons, List.flatten_cons, reprPart]
            rw [List.nil_append]
            exact ih none (errs ++ [⟨"Unexpected closing i18n comment"⟩])
          · simp only [List.map_cons, List.flatten_cons, reprPart]
            rw [List.nil_append]
            exact ih none errs
      | element nm attrs ch =>
        have hop : isOpeningComment (.element nm attrs ch) = false := rfl
        simp only [partitionGo, flattenGo, hop, Bool.false_eq_true, if_false,
          List.map_cons, List.flatten_cons, reprPart]
        rw [List.singleton_append]
        rw [ih none errs]
        rfl
      | text v =>
        have hop : isOpeningComment (.text v) = false := rfl
        simp only [partitionGo, flattenGo, hop, Bool.false_eq_true, if_false,
          List.map_cons, List.flatten_cons, reprPart]
        rw [List.singleton_append]
        rw [ih none errs]
        rfl
    | some pr =>
      obtain ⟨m, acc⟩ := pr
      simp only [partitionGo, flattenGo]
      split
      · simp only [List.map_cons, List.flatten_cons, reprPart]
        rw [ih none errs]
        rfl
      · have := ih (some (m, acc ++ [n])) errs
        simpa using this

/-- C3 counterexample: concatenating the `children` of the Parts does *not*
reproduce the sibling list.  A part holds a lone text node in its
`rootTextNode` field with empty `children` (and an element part holds the
element in `rootElement` with the element's own children as `children`), so
the plain concatenation of `children` loses nodes: for the single sibling
list `[text "E"]` it yields `[]`. -/
theorem partition_children_not_lossless :
    ((partition [HtmlAst.text "E"] [] []).1.map Part.children).flatten ≠
      [HtmlAst.text "E"] := by
  simp [partition, partitionGo]

/-- C3 amended: concatenating, for each Part in order, its root element if
present, else its root text node if present, else its children, reproduces
the original sibling list with the top-level comment nodes (the marker
comments and any stray comments) removed; the nodes inside a marker span —
comments included — are preserved, in order, as that part's children. -/
theorem partition_reprPart_lossless (nodes : List HtmlAst)
    (errors : List ParseError) (implicitTags : List String) :
    ((partition nodes errors implicitTags).1.map reprPart).flatten =
      flattenGo nodes none :=
  partitionGo_flatten implicitTags nodes none errors

/-! ## Claim C7: the attribute walk reaches every descendant element -/

/-- The pre-order list of all descendant elements of a sibling forest: each
element in document order, followed by its own descendant elements. -/
def descendantElements : List HtmlAst → List HtmlAst
  | [] => []
  | .element nm attrs ch :: rest =>
    .element nm attrs ch :: (descendantElements ch ++ descendantElements rest)
  | _ :: rest => descendantElements rest

/-- Sequential attribute extraction over an explicit list of elements. -/
def foldAttrElems (B : HtmlAst → HtmlAttr → Except ExtractError Message)
    (cfg : InterpolationConfig)
    (implicitAttrs : List (String × List String)) :
    List HtmlAst → ExtractState → Except ExtractError ExtractState
  | [], st => .ok st
  | el :: rest, st =>
    match extractMessagesFromAttributesB B cfg implicitAttrs el st with
    | .error e => .error e
    | .ok st1 => foldAttrElems B cfg implicitAttrs rest st1

theorem foldAttrElems_append
    (B : HtmlAst → HtmlAttr → Except ExtractError Message)
    (cfg : InterpolationConfig)
    (implicitAttrs : List (String × List String)) (l1 l2 : List HtmlAst) :
    ∀ st, foldAttrElems B cfg implicitAttrs (l1 ++ l2) st =
      match foldAttrElems B cfg implicitAttrs l1 st with
      | .error e => .error e
      | .ok st1 => foldAttrElems B cfg implicitAttrs l2 st1 := by
  induction l1 with
  | nil =>
    intro st
    simp [foldAttrElems]
  | cons el rest ih =>
    intro st
    rw [List.cons_append, foldAttrElems, foldAttrElems]
    cases extractMessagesFromAttributesB B cfg implicitAttrs el st with
    | error e => rfl
    | ok st1 => exact ih st1

/-- Size-based strong induction over sibling forests. -/
theorem nodes_size_induction (P : List HtmlAst → Prop)
    (h : ∀ nodes, (∀ l, nodesSize l < nodesSize nodes → P l) → P nodes)
    (nodes : List HtmlAst) : P nodes := by
  suffices hs : ∀ (k : Nat) (l : List HtmlAst), nodesSize l ≤ k → P l from
    hs (nodesSize nodes) nodes Nat.le.refl
  intro k
  induction k with
  | zero =>
    intro l h0
    exact h l (fun l2 hl2 => absurd (Nat.lt_of_lt_of_le hl2 h0)
      (Nat.not_lt_zero _))
  | succ k ih =>
    intro l hk
    exact h l (fun l2 hl2 => ih l2 (by omega))

/-- C7: the recursive attribute walk run on a sibling list (in particular on
a translatable Part's children, source line 125) extracts attribute-level
messages from exactly the elements of that list and, recursively, from every
descendant element of those, in pre-order — not only from the immediate
children. -/
theorem recurseToExtract_visits_all_descendant_elements
    (B : HtmlAst → HtmlAttr → Except ExtractError Message)
    (cfg : InterpolationConfig)
    (implicitAttrs : List (String × List String)) :
    ∀ (nodes : List HtmlAst) (st : ExtractState),
      recurseToExtractMessagesFromAttributesB B cfg implicitAttrs nodes st =
        foldAttrElems B cfg implicitAttrs (descendantElements nodes) st := by
  intro nodes
  induction nodes using nodes_size_induction with
  | h nodes ih =>
    match nodes with
    | [] =>
      intro st
      simp [recurseToExtractMessagesFromAttributesB, descendantElements,
        foldAttrElems]
    | .element nm attrs ch :: rest =>
      intro st
      simp only [recurseToExtractMessagesFromAttributesB,
        descendantElements]
      rw [foldAttrElems]
      cases hres : extractMessagesFromAttributesB B cfg implicitAttrs
          (.element nm attrs ch) st with
      | error e => rfl
      | ok st1 =>
        have hch : nodesSize ch <
            nodesSize (HtmlAst.element nm attrs ch :: rest) := by
          simp only [nodesSize, nodeSize]
          omega
        have hrest : nodesSize rest <
            nodesSize (HtmlAst.element nm attrs ch :: rest) := by
          simp only [nodesSize, nodeSize]
          omega
        show (match recurseToExtractMessagesFromAttributesB B cfg
            implicitAttrs ch st1 with
          | .error e => Except.error e
          | .ok st2 =>
            recurseToExtractMessagesFromAttributesB B cfg implicitAttrs
              rest st2) =
          foldAttrElems B cfg implicitAttrs
            (descendantElements ch ++ descendantElements rest) st1
        rw [foldAttrElems_append, ih ch hch st1]
        cases foldAttrElems B cfg implicitAttrs (descendantElements ch)
            st1 with
        | error e => rfl
        | ok st2 => exact ih rest hrest st2
    | .text v :: rest =>
      intro st
      simp only [recurseToExtractMessagesFromAttributesB,
        descendantElements]
      have hrest : nodesSize rest < nodesSize (HtmlAst.text v :: rest) := by
        simp [nodesSize, nodeSize]
      exact ih rest hrest st
    | .comment v :: rest =>
      intro st
      simp only [recurseToExtractMessagesFromAttributesB,
        descendantElements]
      have hrest : nodesSize rest <
          nodesSize (HtmlAst.comment v :: rest) := by
        simp [nodesSize, nodeSize]
      exact ih rest hrest st

/-! ## Claim C9: a part's root element's own attributes are always
inspected -/

/-- C9: for every Part with a root element — translatable or not — after the
per-part step (message creation plus attribute walk over the children for a
translatable part, recursion for a non-translatable one), the root element's
own attributes are inspected for translatable attributes (source lines
130–132); hence marker-prefixed and implicit-table attributes on elements
outside any translatable region still yield messages. -/
theorem extractMessagesFromPart_inspects_root_attributes
    (B : HtmlAst → HtmlAttr → Except ExtractError Message)
    (cfg : InterpolationConfig) (implicitTags : List String)
    (implicitAttrs : List (String × List String)) (part : Part)
    (el : HtmlAst) (st : ExtractState)
    (h : part.rootElement = some el) :
    _extractMessagesFromPart B cfg implicitTags implicitAttrs part st =
      match (if part.hasI18n then
          match part.createMessage cfg with
          | .error e => .error (.i18n e)
          | .ok m =>
            recurseToExtractMessagesFromAttributesB B cfg implicitAttrs
              part.children (st.1 ++ [m], st.2)
        else
          _recurse B cfg implicitTags implicitAttrs part.children st) with
      | .error e => .error e
      | .ok st1 => extractMessagesFromAttributesB B cfg implicitAttrs el st1
      := by
  rw [_extractMessagesFromPart, h]

/-- Witness for C9: a non-translatable part whose root element carries an
implicitly-translatable attribute still yields that attribute's message. -/
theorem extractMessagesFromPart_inspects_root_attributes_witness :
    _extractMessagesFromPart
        (i18nAttrBuilder DEFAULT_INTERPOLATION_CONFIG)
        DEFAULT_INTERPOLATION_CONFIG [] [("a", ["title"])]
        ⟨some (.element "a" [⟨"title", "T"⟩] []), none, [], none, false⟩
        ([], []) =
      .ok ([⟨"T", none, none⟩], []) := by
  rw [extractMessagesFromPart_inspects_root_attributes
    (i18nAttrBuilder DEFAULT_INTERPOLATION_CONFIG)
    DEFAULT_INTERPOLATION_CONFIG [] [("a", ["title"])]
    ⟨some (.element "a" [⟨"title", "T"⟩] []), none, [], none, false⟩
    (.element "a" [⟨"title", "T"⟩] []) ([], []) rfl]
  simp [_recurse, partition, partitionGo, processParts,
    extractMessagesFromAttributesB, explicitPass, implicitPass, transAttrsOf,
    HtmlAst.elName, HtmlAst.attrList, strStartsWith, I18N_ATTR_PREFIX,
    messageFromAttribute, stringifyText, splitInterpChars, splitInterpCharsF,
    splitAtSeq, DEFAULT_INTERPOLATION_CONFIG, renderAttrSegs, htmlEscape,
    escapeChar]

/-! ## Shared machinery for the attribute-selection claims (C5, C6, C10) -/

/-- The `i18n-`-prefixed attributes of an element, in order (the filter at
source line 159). -/
def prefixedAttrs (p : HtmlAst) : List HtmlAttr :=
  p.attrList.filter (fun a => strStartsWith a.name I18N_ATTR_PREFIX)

/-- The base names the explicit pass records: one per prefixed attribute,
pushed before the builder can throw (source line 161). -/
def claimedBases (p : HtmlAst) : List String :=
  (prefixedAttrs p).map baseName

/-- The attributes the implicit pass selects (source lines 173–175), with
`explicitAttrs` spelled out as `claimedBases`. -/
def implicitSelected (implicitAttrs : List (String × List String))
    (p : HtmlAst) : List HtmlAttr :=
  ((p.attrList.filter
        (fun a => !strStartsWith a.name I18N_ATTR_PREFIX)).filter
      (fun a => !(claimedBases p).contains a.name)).filter
    (fun a => (transAttrsOf implicitAttrs p).contains a.name)

/-- The `I18nError` payload of a builder outcome, if any. -/
def i18nErrOf (r : Except ExtractError Message) : Option ParseError :=
  match r with
  | .error (.i18n e) => some e
  | _ => none

theorem beq_str_comm (a b : String) : (a == b) = (b == a) := by
  by_cases h : a = b
  · rw [h]
  · have h1 : (a == b) = false := beq_eq_false_iff_ne.mpr h
    have h2 : (b == a) = false := beq_eq_false_iff_ne.mpr (Ne.symm h)
    rw [h1, h2]

theorem explicitPass_complete
    (B : HtmlAst → HtmlAttr → Except ExtractError Message) (p : HtmlAst) :
    ∀ (attrs : List HtmlAttr) (ex : List String) (ms : List Message)
      (errs : List ParseError),
      (∀ a ∈ attrs, isOtherErr (B p a) = false) →
      explicitPass B p attrs ex (ms, errs) =
        .ok (ex ++ attrs.map baseName,
             ms ++ attrs.filterMap (fun a => (B p a).toOption),
             errs ++ attrs.filterMap (fun a => i18nErrOf (B p a))) := by
  intro attrs
  induction attrs with
  | nil =>
    intro ex ms errs _
    simp [explicitPass]
  | cons a rest ih =>
    intro ex ms errs h
    have ha := h a (List.mem_cons_self a rest)
    have hrest : ∀ b ∈ rest, isOtherErr (B p b) = false :=
      fun b hb => h b (List.mem_cons_of_mem a hb)
    rw [explicitPass]
    cases hB : B p a with
    | ok m =>
      have hi := ih (ex ++ [baseName a]) (ms ++ [m]) errs hrest
      simp [hi, List.filterMap_cons, hB, Except.toOption, i18nErrOf]
    | error err =>
      cases err with
      | i18n e =>
        have hi := ih (ex ++ [baseName a]) ms (errs ++ [e]) hrest
        simp [hi, List.filterMap_cons, hB, Except.toOption, i18nErrOf]
      | other e =>
        simp [isOtherErr, hB] at ha

theorem explicitPass_other_propagates
    (B : HtmlAst → HtmlAttr → Except ExtractError Message) (p : HtmlAst) :
    ∀ (l : List HtmlAttr) (a : HtmlAttr) (r : List HtmlAttr)
      (ex : List String) (ms : List Message) (errs : List ParseError)
      (e : String),
      (∀ b ∈ l, isOtherErr (B p b) = false) →
      B p a = .error (.other e) →
      explicitPass B p (l ++ a :: r) ex (ms, errs) = .error (.other e) := by
  intro l
  induction l with
  | nil =>
    intro a r ex ms errs e _ hB
    rw [List.nil_append, explicitPass, hB]
  | cons b l2 ih =>
    intro a r ex ms errs e h hB
    have hb := h b (List.mem_cons_self b l2)
    have hl2 : ∀ c ∈ l2, isOtherErr (B p c) = false :=
      fun c hc => h c (List.mem_cons_of_mem b hc)
    rw [List.cons_append, explicitPass]
    cases hBb : B p b with
    | ok m => exact ih a r (ex ++ [baseName b]) (ms ++ [m]) errs e hl2 hB
    | error err =>
      cases err with
      | i18n e2 =>
        exact ih a r (ex ++ [baseName b]) ms (errs ++ [e2]) e hl2 hB
      | other e2 =>
        simp [isOtherErr, hBb] at hb

theorem implicitPass_ok (cfg : InterpolationConfig) :
    ∀ (l : List HtmlAttr) (ms : List Message) (errs : List ParseError),
      (∀ a ∈ l, (messageFromAttribute cfg a).toOption.isSome = true) →
      implicitPass cfg l (ms, errs) =
        .ok (ms ++ l.filterMap (fun a => (messageFromAttribute cfg a).toOption),
             errs) := by
  intro l
  induction l with
  | nil =>
    intro ms errs _
    simp [implicitPass]
  | cons a rest ih =>
    intro ms errs h
    have ha := h a (List.mem_cons_self a rest)
    have hrest : ∀ b ∈ rest,
        (messageFromAttribute cfg b).toOption.isSome = true :=
      fun b hb => h b (List.mem_cons_of_mem a hb)
    rw [implicitPass]
    cases hB : messageFromAttribute cfg a with
    | ok m =>
      have hi := ih (ms ++ [m]) errs hrest
      simp [hi, List.filterMap_cons, hB, Except.toOption]
    | error e =>
      simp [hB, Except.toOption] at ha

theorem i18nAttrBuilder_no_other (cfg : InterpolationConfig) (p : HtmlAst)
    (a : HtmlAttr) : isOtherErr (i18nAttrBuilder cfg p a) = false := by
  rw [i18nAttrBuilder]
  cases messageFromI18nAttribute cfg p a <;> rfl

theorem i18nAttrBuilder_toOption (cfg : InterpolationConfig) (p : HtmlAst)
    (a : HtmlAttr) :
    (i18nAttrBuilder cfg p a).toOption =
      (messageFromI18nAttribute cfg p a).toOption := by
  rw [i18nAttrBuilder]
  cases messageFromI18nAttribute cfg p a <;> rfl

theorem i18nAttrBuilder_errOf (cfg : InterpolationConfig) (p : HtmlAst)
    (a : HtmlAttr) :
    i18nErrOf (i18nAttrBuilder cfg p a) =
      match messageFromI18nAttribute cfg p a with
      | .error e => some e
      | .ok _ => none := by
  rw [i18nAttrBuilder]
  cases messageFromI18nAttribute cfg p a <;> rfl

/-- The concrete attribute extraction in terms of the two passes: with the
concrete builder the explicit pass never throws, so the whole call reduces
to the implicit pass run after it on the implicitly-selected attributes. -/
theorem extractMessagesFromAttributes_unfold (cfg : InterpolationConfig)
    (implicitAttrs : List (String × List String)) (p : HtmlAst)
    (ms : List Message) (errs : List ParseError) :
    _extractMessagesFromAttributes cfg implicitAttrs p (ms, errs) =
      implicitPass cfg (implicitSelected implicitAttrs p)
        (ms ++ (prefixedAttrs p).filterMap
            (fun a => (messageFromI18nAttribute cfg p a).toOption),
         errs ++ (prefixedAttrs p).filterMap
            (fun a => match messageFromI18nAttribute cfg p a with
              | .error e => some e
              | .ok _ => none)) := by
  have hc := explicitPass_complete (i18nAttrBuilder cfg) p
    (p.attrList.filter (fun a => strStartsWith a.name I18N_ATTR_PREFIX))
    [] ms errs (fun a _ => i18nAttrBuilder_no_other cfg p a)
  have h1 : ((p.attrList.filter
        (fun a => strStartsWith a.name I18N_ATTR_PREFIX)).filterMap
      (fun a => (i18nAttrBuilder cfg p a).toOption)) =
      (p.attrList.filter
          (fun a => strStartsWith a.name I18N_ATTR_PREFIX)).filterMap
        (fun a => (messageFromI18nAttribute cfg p a).toOption) :=
    List.filterMap_congr (fun a _ => i18nAttrBuilder_toOption cfg p a)
  have h2 : ((p.attrList.filter
        (fun a => strStartsWith a.name I18N_ATTR_PREFIX)).filterMap
      (fun a => i18nErrOf (i18nAttrBuilder cfg p a))) =
      (p.attrList.filter
          (fun a => strStartsWith a.name I18N_ATTR_PREFIX)).filterMap
        (fun a => match messageFromI18nAttribute cfg p a with
          | .error e => some e
          | .ok _ => none) :=
    List.filterMap_congr (fun a _ => i18nAttrBuilder_errOf cfg p a)
  rw [_extractMessagesFromAttributes, extractMessagesFromAttributesB]
  simp only [hc, h1, h2, List.nil_append]
  rw [implicitSelected, claimedBases, prefixedAttrs]

/-! ## Claim C5: the attribute selection policy -/

/-- The claim's selection policy, following the spec's words (§4.4): an
attribute is translatable iff (a) its name starts with the i18n attribute
prefix, or (b) it does not, no prefixed attribute on the same element has
the same base name (the prefixed name minus the prefix), and the bare name
is in the implicit-translatable table for the element's tag. -/
def specTranslatable (implicitAttrs : List (String × List String))
    (p : HtmlAst) (a : HtmlAttr) : Bool :=
  strStartsWith a.name I18N_ATTR_PREFIX ||
  (!strStartsWith a.name I18N_ATTR_PREFIX &&
   !(p.attrList.any (fun b =>
      strStartsWith b.name I18N_ATTR_PREFIX && baseName b == a.name)) &&
   (transAttrsOf implicitAttrs p).contains a.name)

/-- C5 counterexample: an element carrying `i18n-title` but no `title`
attribute.  Its one attribute satisfies clause (a) of the policy (count 1),
yet the walk produces zero messages: the builder throws (the base attribute
is missing), the `I18nError` is recorded, and no message exists — so "an
attribute yields a message iff (a) ∨ (b)" fails as stated. -/
theorem attr_policy_counterexample :
    (_extractMessagesFromAttributes DEFAULT_INTERPOLATION_CONFIG
        [("div", ["title"])] (.element "div" [⟨"i18n-title", "m|d"⟩] [])
        ([], [])).map (fun st => st.1.length) = .ok 0 ∧
    (HtmlAst.element "div" [⟨"i18n-title", "m|d"⟩] []).attrList.countP
      (specTranslatable [("div", ["title"])]
        (.element "div" [⟨"i18n-title", "m|d"⟩] [])) = 1 :=
  ⟨rfl, rfl⟩

/-- The amended selection policy: clause (a) additionally requires the
message builder to succeed on the prefixed attribute (otherwise an i18n
error is recorded instead of a message); clause (b) is as in the claim. -/
def amendedTranslatable (cfg : InterpolationConfig)
    (implicitAttrs : List (String × List String)) (p : HtmlAst)
    (a : HtmlAttr) : Bool :=
  (strStartsWith a.name I18N_ATTR_PREFIX &&
     (messageFromI18nAttribute cfg p a).toOption.isSome) ||
  (!strStartsWith a.name I18N_ATTR_PREFIX &&
   !(p.attrList.any (fun b =>
      strStartsWith b.name I18N_ATTR_PREFIX && baseName b == a.name)) &&
   (transAttrsOf implicitAttrs p).contains a.name)

theorem length_filterMap_filter {α β : Type} (f : α → Option β)
    (q : α → Bool) (l : List α) :
    ((l.filter q).filterMap f).length =
      l.countP (fun a => q a && (f a).isSome) := by
  induction l with
  | nil => rfl
  | cons a rest ih =>
    rw [List.filter_cons, List.countP_cons]
    by_cases hq : q a = true
    · rw [if_pos hq, List.filterMap_cons]
      cases hf : f a with
      | none => simp [hq, hf, ih]
      | some b => simp [hq, hf, ih]
    · rw [Bool.not_eq_true] at hq
      simp [hq, ih]

theorem length_filterMap_all_some {α β : Type} (f : α → Option β)
    (l : List α) (h : ∀ a ∈ l, (f a).isSome = true) :
    (l.filterMap f).length = l.length := by
  induction l with
  | nil => rfl
  | cons a rest ih =>
    have ha := h a (List.mem_cons_self a rest)
    cases hf : f a with
    | none => rw [hf] at ha; simp at ha
    | some b =>
      rw [List.filterMap_cons, hf]
      simp only [List.length_cons]
      rw [ih (fun b hb => h b (List.mem_cons_of_mem a hb))]

theorem countP_or_disjoint {α : Type} (p q : α → Bool) (l : List α)
    (h : ∀ a ∈ l, p a = true → q a = false) :
    l.countP (fun a => p a || q a) = l.countP p + l.countP q := by
  induction l with
  | nil => rfl
  | cons a rest ih =>
    have hrest := ih (fun b hb => h b (List.mem_cons_of_mem a hb))
    simp only [List.countP_cons]
    by_cases hp : p a = true
    · have hq := h a (List.mem_cons_self a rest) hp
      simp [hp, hq, hrest]
      omega
    · rw [Bool.not_eq_true] at hp
      by_cases hq : q a = true
      · simp [hp, hq, hrest]
        omega
      · rw [Bool.not_eq_true] at hq
        simp [hp, hq, hrest]

theorem claimedBases_contains (p : HtmlAst) (s : String) :
    (claimedBases p).contains s =
      p.attrList.any (fun b =>
        strStartsWith b.name I18N_ATTR_PREFIX && baseName b == s) := by
  rw [claimedBases, prefixedAttrs]
  generalize p.attrList = l
  induction l with
  | nil => rfl
  | cons a rest ih =>
    rw [List.filter_cons, List.any_cons]
    by_cases hp : strStartsWith a.name I18N_ATTR_PREFIX = true
    · rw [if_pos hp, List.map_cons, List.contains_cons, ih, hp]
      rw [beq_str_comm s (baseName a)]
      simp
    · rw [Bool.not_eq_true] at hp
      rw [hp]
      rw [if_neg (by simp)]
      rw [ih]
      simp

theorem implicitSelected_length (implicitAttrs : List (String × List String))
    (p : HtmlAst) :
    (implicitSelected implicitAttrs p).length =
      p.attrList.countP (fun a =>
        !strStartsWith a.name I18N_ATTR_PREFIX &&
        !(p.attrList.any (fun b =>
           strStartsWith b.name I18N_ATTR_PREFIX && baseName b == a.name)) &&
        (transAttrsOf implicitAttrs p).contains a.name) := by
  rw [implicitSelected, List.filter_filter, List.filter_filter,
    ← List.countP_eq_length_filter]
  apply List.countP_congr
  intro a _
  rw [claimedBases_contains]
  simp only [Bool.and_eq_true, Bool.not_eq_true']
  tauto

/-- C5 amended: provided every implicitly-selected attribute's value builds
(the implicit pass is not wrapped in the `try`, so a failure there aborts
instead), the attribute walk yields exactly: one message per prefixed
attribute on which the builder succeeds (in attribute order), then one
message per attribute selected by clause (b), and one recorded i18n error
per failing prefixed attribute — so an attribute yields a message iff it
satisfies the amended policy, and in particular an element with both
`i18n-title` and an implicit-table `title` yields exactly one `title`
message, built from the `i18n-title` marker. -/
theorem attr_policy_amended (cfg : InterpolationConfig)
    (implicitAttrs : List (String × List String)) (p : HtmlAst)
    (ms : List Message) (errs : List ParseError)
    (himp : ∀ a ∈ implicitSelected implicitAttrs p,
      (messageFromAttribute cfg a).toOption.isSome = true) :
    _extractMessagesFromAttributes cfg implicitAttrs p (ms, errs) =
      .ok (ms ++ ((prefixedAttrs p).filterMap
              (fun a => (messageFromI18nAttribute cfg p a).toOption) ++
            (implicitSelected implicitAttrs p).filterMap
              (fun a => (messageFromAttribute cfg a).toOption)),
           errs ++ (prefixedAttrs p).filterMap
              (fun a => match messageFromI18nAttribute cfg p a with
                | .error e => some e
                | .ok _ => none)) ∧
    ((prefixedAttrs p).filterMap
        (fun a => (messageFromI18nAttribute cfg p a).toOption) ++
      (implicitSelected implicitAttrs p).filterMap
        (fun a => (messageFromAttribute cfg a).toOption)).length =
      p.attrList.countP (amendedTranslatable cfg implicitAttrs p) := by
  constructor
  · rw [extractMessagesFromAttributes_unfold,
      implicitPass_ok cfg (implicitSelected implicitAttrs p) _ _ himp]
    simp [List.append_assoc]
  · rw [List.length_append]
    have h1 : ((prefixedAttrs p).filterMap
        (fun a => (messageFromI18nAttribute cfg p a).toOption)).length =
        p.attrList.countP (fun a =>
          strStartsWith a.name I18N_ATTR_PREFIX &&
          (messageFromI18nAttribute cfg p a).toOption.isSome) := by
      rw [prefixedAttrs]
      exact length_filterMap_filter _ _ _
    have h2 : ((implicitSelected implicitAttrs p).filterMap
        (fun a => (messageFromAttribute cfg a).toOption)).length =
        (implicitSelected implicitAttrs p).length :=
      length_filterMap_all_some _ _ himp
    have hdisj : ∀ a ∈ p.attrList,
        (fun a => strStartsWith a.name I18N_ATTR_PREFIX &&
          (messageFromI18nAttribute cfg p a).toOption.isSome) a = true →
        (fun a =>
          !strStartsWith a.name I18N_ATTR_PREFIX &&
          !(p.attrList.any (fun b =>
             strStartsWith b.name I18N_ATTR_PREFIX && baseName b == a.name)) &&
          (transAttrsOf implicitAttrs p).contains a.name) a = false := by
      intro a _ hpa
      rw [Bool.and_eq_true] at hpa
      simp [hpa.1]
    rw [h1, h2, implicitSelected_length, ← countP_or_disjoint _ _ _ hdisj]
    apply List.countP_congr
    intro a _
    rw [amendedTranslatable]

/-- Witness for C5 at the spec's scenario 4 (`i18n-title` plus an
implicit-table `title`): exactly one message for `title`, built from the
explicit marker's meaning/description and the base attribute's value. -/
theorem attr_policy_amended_witness :
    _extractMessagesFromAttributes DEFAULT_INTERPOLATION_CONFIG
        [("div", ["title"])]
        (.element "div" [⟨"i18n-title", "m|d"⟩, ⟨"title", "Hello"⟩] [])
        ([], []) =
      .ok ([⟨"Hello", some "m", some "d"⟩], []) ∧
    (HtmlAst.element "div" [⟨"i18n-title", "m|d"⟩, ⟨"title", "Hello"⟩]
        []).attrList.countP
      (amendedTranslatable DEFAULT_INTERPOLATION_CONFIG [("div", ["title"])]
        (.element "div" [⟨"i18n-title", "m|d"⟩, ⟨"title", "Hello"⟩] [])) =
      1 := by
  have h := attr_policy_amended DEFAULT_INTERPOLATION_CONFIG
    [("div", ["title"])]
    (.element "div" [⟨"i18n-title", "m|d"⟩, ⟨"title", "Hello"⟩] []) [] []
    (fun a ha => by revert a ha; decide)
  refine ⟨?_, ?_⟩
  · rw [h.1]
    rfl
  · rw [← h.2]
    rfl

/-! ## Claim C6: the two error channels of the attribute walk -/

/-- C6: during the explicit attribute pass (the `try`/`catch` at source
lines 160–169):
1. when every builder outcome on the element's prefixed attributes is a
   success or a thrown `I18nError`, the pass completes over *all* of them,
   appending each `I18nError` to the error list and each built message to
   the message list — an error does not stop the remaining attributes;
2. the first thrown value that is *not* an `I18nError` is rethrown and
   propagates immediately out of `_extractMessagesFromAttributes` (and, the
   call tree being a chain of `Except` binds, out of `extract`), aborting
   the extraction. -/
theorem attrWalk_error_flow
    (B : HtmlAst → HtmlAttr → Except ExtractError Message)
    (cfg : InterpolationConfig)
    (implicitAttrs : List (String × List String)) :
    (∀ (p : HtmlAst) (ms : List Message) (errs : List ParseError),
      (∀ a ∈ prefixedAttrs p, isOtherErr (B p a) = false) →
      explicitPass B p (prefixedAttrs p) [] (ms, errs) =
        .ok (claimedBases p,
             ms ++ (prefixedAttrs p).filterMap (fun a => (B p a).toOption),
             errs ++ (prefixedAttrs p).filterMap
               (fun a => i18nErrOf (B p a)))) ∧
    (∀ (p : HtmlAst) (l : List HtmlAttr) (a : HtmlAttr) (r : List HtmlAttr)
       (ms : List Message) (errs : List ParseError) (e : String),
      prefixedAttrs p = l ++ a :: r →
      (∀ b ∈ l, isOtherErr (B p b) = false) →
      B p a = .error (.other e) →
      extractMessagesFromAttributesB B cfg implicitAttrs p (ms, errs) =
        .error (.other e)) := by
  constructor
  · intro p ms errs h
    rw [explicitPass_complete B p (prefixedAttrs p) [] ms errs h,
      claimedBases]
    simp
  · intro p l a r ms errs e hsplit hl hB
    have hprop := explicitPass_other_propagates B p l a r [] ms errs e hl hB
    have hfilter : p.attrList.filter
        (fun a => strStartsWith a.name I18N_ATTR_PREFIX) = l ++ a :: r :=
      hsplit
    rw [extractMessagesFromAttributesB, hfilter, hprop]

/-- A builder exercising both error channels: `i18n-bad` throws a
non-I18nError value, `i18n-x` throws an `I18nError`, anything else
succeeds. -/
def testBuilder : HtmlAst → HtmlAttr → Except ExtractError Message :=
  fun _ a =>
    if a.name == "i18n-bad" then .error (.other "boom")
    else if a.name == "i18n-x" then .error (.i18n ⟨"bad"⟩)
    else .ok ⟨a.value, none, none⟩

/-- Witness for C6: on an element with a failing and a succeeding marker
attribute the pass records the error and still processes the rest; on an
element whose builder throws a non-I18nError the whole walk aborts with
that value. -/
theorem attrWalk_error_flow_witness :
    explicitPass testBuilder
        (.element "div" [⟨"i18n-x", "m"⟩, ⟨"i18n-y", "V"⟩] [])
        (prefixedAttrs
          (.element "div" [⟨"i18n-x", "m"⟩, ⟨"i18n-y", "V"⟩] []))
        [] ([], []) =
      .ok (["x", "y"], [⟨"V", none, none⟩], [⟨"bad"⟩]) ∧
    extractMessagesFromAttributesB testBuilder DEFAULT_INTERPOLATION_CONFIG
        [] (.element "div" [⟨"i18n-bad", ""⟩] []) ([], []) =
      .error (.other "boom") := by
  have h := attrWalk_error_flow testBuilder DEFAULT_INTERPOLATION_CONFIG []
  constructor
  · rw [h.1 (.element "div" [⟨"i18n-x", "m"⟩, ⟨"i18n-y", "V"⟩] []) [] []
      (by decide)]
    rfl
  · exact h.2 (.element "div" [⟨"i18n-bad", ""⟩] []) [] ⟨"i18n-bad", ""⟩ []
      [] [] "boom" (by decide) (by decide) rfl

/-! ## Claim C10: the base name is claimed before the builder can throw -/

/-- C10: when building the message for an `i18n-`-prefixed attribute throws
an `I18nError`, the attribute's base name was already pushed onto
`explicitAttrs` (line 161 executes before the throwing call at line 162),
so the implicit pass on the same element still skips that base name — no
implicit fallback message is produced for it — while the error itself is
recorded in the error list and the final `explicitAttrs` still lists every
prefixed attribute's base name. -/
theorem claimed_base_blocks_implicit_fallback (cfg : InterpolationConfig)
    (implicitAttrs : List (String × List String)) (p : HtmlAst)
    (a : HtmlAttr) (e : ParseError)
    (ha : a ∈ p.attrList)
    (hpref : strStartsWith a.name I18N_ATTR_PREFIX = true)
    (herr : messageFromI18nAttribute cfg p a = .error e) :
    baseName a ∈ claimedBases p ∧
    (∀ b ∈ implicitSelected implicitAttrs p, b.name ≠ baseName a) ∧
    ∃ st, explicitPass (i18nAttrBuilder cfg) p (prefixedAttrs p) []
        ([], []) = .ok st ∧ e ∈ st.2.2 ∧ st.1 = claimedBases p := by
  have hmem : a ∈ prefixedAttrs p :=
    List.mem_filter.mpr ⟨ha, hpref⟩
  have hbase : baseName a ∈ claimedBases p :=
    List.mem_map_of_mem baseName hmem
  refine ⟨hbase, ?_, ?_⟩
  · intro b hb
    rw [implicitSelected] at hb
    have hb2 := List.mem_filter.mp hb
    have hb3 := List.mem_filter.mp hb2.1
    have hnc : ((claimedBases p).contains b.name) = false := by
      have hx := hb3.2
      cases hy : (claimedBases p).contains b.name
      · rfl
      · rw [hy] at hx
        simp at hx
    intro hcontra
    rw [hcontra] at hnc
    have hyes : (claimedBases p).contains (baseName a) = true :=
      List.elem_iff.mpr hbase
    rw [hyes] at hnc
    cases hnc
  · refine ⟨_, explicitPass_complete (i18nAttrBuilder cfg) p
      (prefixedAttrs p) [] [] []
      (fun b _ => i18nAttrBuilder_no_other cfg p b), ?_, ?_⟩
    · simp only [List.nil_append]
      apply List.mem_filterMap.mpr
      refine ⟨a, hmem, ?_⟩
      rw [i18nAttrBuilder_errOf, herr]
    · simp [claimedBases]

/-- Witness for C10: `i18n-title` whose base attribute `title` holds an
unterminated interpolation — building throws, yet `title` is claimed, so
the implicit pass produces nothing for `title` even though it is in the
implicit table and present on the element. -/
theorem claimed_base_blocks_implicit_fallback_witness :
    baseName ⟨"i18n-title", "m|d"⟩ ∈
      claimedBases
        (.element "div" [⟨"i18n-title", "m|d"⟩, ⟨"title", "\x7b\x7b"⟩] []) ∧
    (∀ b ∈ implicitSelected [("div", ["title"])]
        (.element "div" [⟨"i18n-title", "m|d"⟩, ⟨"title", "\x7b\x7b"⟩] []),
      b.name ≠ baseName ⟨"i18n-title", "m|d"⟩) ∧
    ∃ st, explicitPass (i18nAttrBuilder DEFAULT_INTERPOLATION_CONFIG)
        (.element "div" [⟨"i18n-title", "m|d"⟩, ⟨"title", "\x7b\x7b"⟩] [])
        (prefixedAttrs
          (.element "div" [⟨"i18n-title", "m|d"⟩, ⟨"title", "\x7b\x7b"⟩] []))
        [] ([], []) = .ok st ∧
      (⟨"Unterminated interpolation"⟩ : ParseError) ∈ st.2.2 ∧
      st.1 = claimedBases
        (.element "div" [⟨"i18n-title", "m|d"⟩, ⟨"title", "\x7b\x7b"⟩] []) :=
  claimed_base_blocks_implicit_fallback DEFAULT_INTERPOLATION_CONFIG
    [("div", ["title"])]
    (.element "div" [⟨"i18n-title", "m|d"⟩, ⟨"title", "\x7b\x7b"⟩] [])
    ⟨"i18n-title", "m|d"⟩ ⟨"Unterminated interpolation"⟩
    (by decide) (by decide) rfl

end I18n
